import Mathlib

/-!
Verification of the `ddb-simple-migrate` migration engine.

Shallow embedding of the repository's source:

* `src/lib/util.ts` — `asyncRetry` over the `promise-retry` dependency
  (the Retry Controller of the spec, §4.2);
* `src/lib/dynamo.ts` — `batchWrite` (the Batch Writer, §4.3);
* `src/index.ts` — the migration engine `migrate` (§4.4) with the
  pre-flight guard (§4.5).

The external store (DynamoDB) is modelled as an oracle: a function from
the index of the call (0-based, in the order the calls are issued) and
the submitted write requests to the store's response.  Logging, timing
and sleeping are omitted — they do not influence any data visible to
the claims.  Loops that are `while` loops in the source are embedded
with an explicit fuel parameter; the fuel actually supplied is proved
sufficient, so the out-of-fuel branches are unreachable.
-/

namespace DdbSimpleMigrate

/-- Retry options of `src/lib/util.ts` (`DEFAULT_RETRY_OPTIONS.retries = 7`,
so 8 total attempts). Backoff timing (`factor`, `minTimeout`) only affects
sleeping and is omitted. -/
def defaultRetries : Nat := 7

/-- Modelled from the spec: the external `promise-retry` npm dependency used
by `asyncRetry` in `src/lib/util.ts` (the Retry Controller, spec §4.2).
The wrapped operation is a state transformer (the source operation is a
closure mutating captured variables): it receives the 1-based attempt
number and the state, and returns the new state together with the error it
raised, if any.  Mutations made by a failing attempt persist.  The
operation is re-invoked while it raises and retries remain; on exhaustion
the last error is propagated.  The list of attempt numbers actually passed
to the operation is returned as instrumentation. -/
def promiseRetryGo (op : Nat → σ → σ × Option ε) :
    Nat → Nat → σ → σ × Option ε × List Nat
  | retriesLeft, attempt, s =>
    match op attempt s with
    | (s', none) => (s', none, [attempt])
    | (s', some e) =>
      match retriesLeft with
      | 0 => (s', some e, [attempt])
      | r + 1 =>
        let rec' := promiseRetryGo op r (attempt + 1) s'
        (rec'.1, rec'.2.1, attempt :: rec'.2.2)

/-- Embedding of `asyncRetry` from `src/lib/util.ts`: run the operation
under `promise-retry` with the default options (7 retries, attempt
numbers starting at 1). -/
def asyncRetry (op : Nat → σ → σ × Option ε) (s : σ) : σ × Option ε × List Nat :=
  promiseRetryGo op defaultRetries 1 s

/-- `Limit` from `src/lib/dynamo.ts`: page size and maximal batch size. -/
def Limit : Nat := 25

/-- A DynamoDB `WriteRequest` as built by `batchWrite`
(`{ PutRequest: { Item } }`); the wrapping is kept as a one-field
structure over the opaque item type. -/
structure WriteReq (α : Type) where
  Item : α
  deriving Repr, DecidableEq

/-- `DLQItem` from `src/definitions.ts`. -/
structure DLQItem (α ε : Type) where
  TableName : String
  Requests : List (WriteReq α)
  Error : ε
  deriving Repr, DecidableEq

/-- Response of one call to the store's batched-write operation
(`client.batchWrite(...).promise()`): either the promise rejects with an
error, or it resolves with an `UnprocessedItems` map; `unprocessed = some rs`
means the map has an entry `rs` for the destination table, `none` means it
has no entry for it. -/
inductive BatchWriteResult (α ε : Type) where
  | failure (e : ε)
  | success (unprocessed : Option (List (WriteReq α)))
  deriving Repr, DecidableEq

/-- The store oracle: response of the `i`-th batched-write call (0-based,
counted across one `batchWrite` invocation) to the submitted requests. -/
abbrev Store (α ε : Type) := Nat → List (WriteReq α) → BatchWriteResult α ε

/-- State of the closure passed to `asyncRetry` inside `batchWrite`
(`src/lib/dynamo.ts` lines 66–96): the captured mutable variables
`batchRequests` and `dynamoError`, plus the list of submissions made so
far in this attempt sequence (instrumentation; its length is the number
of store calls already issued by this sequence). -/
structure AttemptState (α ε : Type) where
  batchRequests : List (WriteReq α)
  dynamoError : Option ε
  seg : List (List (WriteReq α))
  deriving Repr, DecidableEq

/-- One attempt of the closure inside `batchWrite`: submit the current
`batchRequests`; a store error is trapped (`catch (e) { dynamoError = e;
return; }` — the attempt returns normally); a present unprocessed entry
replaces `batchRequests` and raises the retry signal
(`throw new Error("Unprocessed items added to queue, retry")`, modelled
as `some ()`); otherwise the attempt returns normally. `base` is the
number of store calls issued before this attempt sequence started. -/
def bwAttempt (store : Store α ε) (base : Nat) :
    Nat → AttemptState α ε → AttemptState α ε × Option Unit :=
  fun _attempt s =>
    match store (base + s.seg.length) s.batchRequests with
    | .failure e =>
      ({ s with dynamoError := some e, seg := s.seg ++ [s.batchRequests] }, none)
    | .success none =>
      ({ s with seg := s.seg ++ [s.batchRequests] }, none)
    | .success (some reqs) =>
      ({ s with batchRequests := reqs, seg := s.seg ++ [s.batchRequests] }, some ())

/-- Outcome of `batchWrite`: normal return with the dead-letter queue, or
propagation of the unprocessed-items retry signal after the retry budget
is exhausted (`asyncRetry` re-throws).  Both carry the full submission
trace, grouped by outer-loop iteration (one group per dequeued batch).
`outOfFuel` is the unreachable fuel-exhaustion branch of the embedding. -/
inductive BWOutcome (α ε : Type) where
  | ok (dlq : List (DLQItem α ε)) (groups : List (List (List (WriteReq α))))
  | threw (groups : List (List (List (WriteReq α))))
  | outOfFuel (groups : List (List (List (WriteReq α))))
  deriving Repr, DecidableEq

/-- Submission trace of an outcome, grouped per dequeued batch. -/
def BWOutcome.groups : BWOutcome α ε → List (List (List (WriteReq α)))
  | .ok _ gs => gs
  | .threw gs => gs
  | .outOfFuel gs => gs

/-- Flat submission trace of an outcome: the batches submitted to the
store, in order; position in this list is the store-call index. -/
def BWOutcome.calls (o : BWOutcome α ε) : List (List (WriteReq α)) :=
  o.groups.flatten

/-- Returned dead-letter queue, when `batchWrite` returns normally. -/
def BWOutcome.dlqOut : BWOutcome α ε → Option (List (DLQItem α ε))
  | .ok dlq _ => some dlq
  | .threw _ => none
  | .outOfFuel _ => none

/-- The `while (queue.length > 0)` loop of `batchWrite`
(`src/lib/dynamo.ts` lines 59–110): dequeue up to `Limit` requests,
run the attempt closure under `asyncRetry`; if the retry budget was
exhausted the signal propagates (`threw`); otherwise, if `dynamoError`
was set, push one `DLQItem` with the requests held at the time of the
failure; then continue with the rest of the queue.  `fuel` bounds the
number of iterations; every call supplies `fuel ≥ queue.length`, which
is sufficient since each iteration removes at least one request. -/
def batchWriteGo (store : Store α ε) (tableName : String) :
    Nat → List (WriteReq α) → List (DLQItem α ε) →
    List (List (List (WriteReq α))) → BWOutcome α ε
  | _, [], dlq, groups => .ok dlq groups
  | 0, _ :: _, _, groups => .outOfFuel groups
  | fuel + 1, q@(_ :: _), dlq, groups =>
    let batchRequests := q.take Limit
    let rest := q.drop Limit
    let r := asyncRetry (bwAttempt store groups.flatten.length)
      ⟨batchRequests, none, []⟩
    let s := r.1
    let groups' := groups ++ [s.seg]
    match r.2.1 with
    | some _ => .threw groups'
    | none =>
      match s.dynamoError with
      | some e =>
        batchWriteGo store tableName fuel rest
          (dlq ++ [⟨tableName, s.batchRequests, e⟩]) groups'
      | none => batchWriteGo store tableName fuel rest dlq groups'

/-- Embedding of `batchWrite` from `src/lib/dynamo.ts`: wrap the items
as `WriteRequest`s in original order and drain the queue.  The `delay`
and `quiet` parameters only control sleeping and logging and are
omitted. -/
def batchWrite (store : Store α ε) (tableName : String) (items : List α) :
    BWOutcome α ε :=
  batchWriteGo store tableName items.length
    (items.map fun Item => ⟨Item⟩) [] []

/-- Result of one attempt sequence (one run of `asyncRetry` inside
`batchWrite`), as computed by the reference recursion `attemptTrace`:
the submissions made, the final value of `batchRequests`, the captured
store error if any, and whether the retry budget was exhausted with the
unprocessed-items signal. -/
structure AttemptResult (α ε : Type) where
  submissions : List (List (WriteReq α))
  finalRequests : List (WriteReq α)
  dynamoError : Option ε
  threw : Bool
  deriving Repr, DecidableEq

/-- Reference recursion for one attempt sequence: submit the current
requests at store-call index `base`; a store error ends the sequence with
the error captured; an absent unprocessed entry ends it successfully; a
present unprocessed entry narrows the requests and retries while the
budget `r` allows, and exhausts (`threw`) otherwise. -/
def attemptTrace (store : Store α ε) (base : Nat) (r : Nat)
    (br : List (WriteReq α)) : AttemptResult α ε :=
  match store base br with
  | .failure e => ⟨[br], br, some e, false⟩
  | .success none => ⟨[br], br, none, false⟩
  | .success (some reqs) =>
    match r with
    | 0 => ⟨[br], reqs, none, true⟩
    | r' + 1 =>
      let t := attemptTrace store (base + 1) r' reqs
      ⟨br :: t.submissions, t.finalRequests, t.dynamoError, t.threw⟩

/-- Split a list into consecutive chunks of at most `Limit` elements
(the successive values of `queue.splice(0, Limit)`).  The fuel is a
bound on the number of chunks; `chunksOfLimit` supplies the length of
the list, which is sufficient. -/
def chunksGo : Nat → List β → List (List β)
  | _, [] => []
  | 0, _ :: _ => []
  | fuel + 1, l@(_ :: _) => l.take Limit :: chunksGo fuel (l.drop Limit)

/-- The consecutive batches of at most `Limit` elements of a list, in
order. -/
def chunksOfLimit (l : List β) : List (List β) :=
  chunksGo l.length l

/-- The dead-letter entries determined by a flat submission trace whose
first submission has store-call index `base`: one entry per submission
the store answered with an error, carrying that submission and that
error. -/
def dlqOfCalls (store : Store α ε) (tableName : String) :
    Nat → List (List (WriteReq α)) → List (DLQItem α ε)
  | _, [] => []
  | base, b :: rest =>
    (match store base b with
     | .failure e => [⟨tableName, b, e⟩]
     | _ => []) ++ dlqOfCalls store tableName (base + 1) rest

/-- A submission group `g` based at store-call index `base` narrows
through unprocessed items: every submission other than the last was
answered with a present unprocessed entry, and the following submission
is exactly that entry. -/
def narrows (store : Store α ε) (base : Nat)
    (g : List (List (WriteReq α))) : Prop :=
  ∀ j : Nat, ∀ h : j + 1 < g.length,
    ∃ reqs, store (base + j) (g.get ⟨j, Nat.lt_of_succ_lt h⟩) =
        .success (some reqs) ∧
      g.get ⟨j + 1, h⟩ = reqs

/-- `Mode` from `src/definitions.ts`. -/
inductive Mode where
  | batch
  | stream
  deriving Repr, DecidableEq

/-- The three engine-owned counters of `Counts` (`src/definitions.ts`);
custom counters are caller-owned and not depended on by any claim. -/
structure Counts where
  batch : Nat
  totalItems : Nat
  migratedItems : Nat
  deriving Repr, DecidableEq

/-- One page returned by `batchScan`: the items and the continuation
cursor (`LastEvaluatedKey`); the cursor is opaque, the engine only tests
its presence and passes it back verbatim. -/
structure Page (α κ : Type) where
  Items : List α
  LastEvaluatedKey : Option κ
  deriving Repr, DecidableEq

/-- Arguments of a `migrate` run (`src/index.ts`), with the external
collaborators as oracles: `scanOracle i` is the page returned by the
`i`-th scan call, and `writeStore` is the batched-write oracle handed to
each `batchWrite` invocation (call indices restart per invocation).
`filterCb` and `cb` are the caller's pure per-item callbacks; `batchCb`
models the Batch Mode callback: it receives the filtered page and
returns the dead-letter entries produced by whatever writes it performed
internally (the engine discards this value, mirroring
`await batchCb(...)` whose result is never collected).  `billingMode`
is `tableDetails.Table.BillingModeSummary.BillingMode`. -/
structure MigrateArgs (α κ ε : Type) where
  TableName : String
  billingMode : String
  force : Bool
  mode : Mode
  filterCb : α → Bool
  cb : α → α
  batchCb : List α → List (DLQItem α ε)
  scanOracle : Nat → Page α κ
  writeStore : Store α ε

/-- Outcome of a run: normal completion with the final counters and
dead-letter queue, the pre-flight abort
(`throw new Error("Table not in On-Demand mode")`), or propagation of a
write-side retry-exhaustion error out of `batchWrite`.  Each carries the
number of scan calls issued.  `outOfFuel` is the unreachable
fuel-exhaustion branch of the embedding. -/
inductive RunOutcome (α ε : Type) where
  | ok (counts : Counts) (dlq : List (DLQItem α ε)) (scans : Nat)
  | preflight (counts : Counts) (scans : Nat)
  | writeThrew (counts : Counts) (scans : Nat)
  | outOfFuel (counts : Counts) (scans : Nat)
  deriving Repr, DecidableEq

/-- Number of scan calls issued by a run. -/
def RunOutcome.scans : RunOutcome α ε → Nat
  | .ok _ _ s => s
  | .preflight _ s => s
  | .writeThrew _ s => s
  | .outOfFuel _ s => s

/-- The `do … while (LastEvaluatedKey !== undefined)` loop of
`src/index.ts` (lines 108–154): scan a page, add its size to
`totalItems`, filter it, add the surviving count to `migratedItems`,
then either hand the filtered items to `batchCb` (Batch Mode, result
discarded) or transform them with `cb` and write them with `batchWrite`,
appending the returned dead letters (Stream Mode); increment `batch` and
continue while the page carried a cursor.  A `batchWrite` that throws
the unprocessed-items signal propagates and aborts the run. -/
def migrateLoop (a : MigrateArgs α κ ε) :
    Nat → Nat → Counts → List (DLQItem α ε) → RunOutcome α ε
  | 0, i, c, _ => .outOfFuel c i
  | fuel + 1, i, c, dlq =>
    let page := a.scanOracle i
    let c1 := { c with totalItems := c.totalItems + page.Items.length }
    let filtered := page.Items.filter a.filterCb
    let c2 := { c1 with migratedItems := c1.migratedItems + filtered.length }
    match a.mode with
    | .batch =>
      let _discarded := a.batchCb filtered
      let c3 := { c2 with batch := c2.batch + 1 }
      match page.LastEvaluatedKey with
      | some _ => migrateLoop a fuel (i + 1) c3 dlq
      | none => .ok c3 dlq (i + 1)
    | .stream =>
      let Items := filtered.map a.cb
      match batchWrite a.writeStore a.TableName Items with
      | .ok batchDlq _ =>
        let dlq' := dlq ++ batchDlq
        let c3 := { c2 with batch := c2.batch + 1 }
        match page.LastEvaluatedKey with
        | some _ => migrateLoop a fuel (i + 1) c3 dlq'
        | none => .ok c3 dlq' (i + 1)
      | .threw _ => .writeThrew c2 (i + 1)
      | .outOfFuel _ => .writeThrew c2 (i + 1)

/-- Embedding of the default export of `src/index.ts`: initialize the
counters to zero, check the billing mode (`isOnDemand`), abort before
any scanning when the table is not on-demand and `force` is unset, and
otherwise run the scan loop.  `fuel` bounds the number of pages. -/
def migrate (a : MigrateArgs α κ ε) (fuel : Nat) : RunOutcome α ε :=
  let counts : Counts := ⟨0, 0, 0⟩
  let isOnDemand := a.billingMode = "PAY_PER_REQUEST"
  if ¬isOnDemand ∧ ¬a.force then .preflight counts 0
  else migrateLoop a fuel 0 counts []

/-! ### Lemmas about one attempt sequence -/

theorem getLast?_cons_ne (a : β) {l : List β} (h : l ≠ []) :
    (a :: l).getLast? = l.getLast? := by
  cases l with
  | nil => exact absurd rfl h
  | cons b t => rfl

/-- The attempt sequence submits at least once. -/
theorem attemptTrace_subs_ne (store : Store α ε) (base r : Nat)
    (br : List (WriteReq α)) : (attemptTrace store base r br).submissions ≠ [] := by
  unfold attemptTrace
  rcases store base br with e | u
  · simp
  · rcases u with _ | reqs
    · simp
    · rcases r with _ | r' <;> simp

/-- The first submission of the attempt sequence is the current batch. -/
theorem attemptTrace_head (store : Store α ε) (base r : Nat)
    (br : List (WriteReq α)) :
    (attemptTrace store base r br).submissions.head? = some br := by
  unfold attemptTrace
  rcases store base br with e | u
  · simp
  · rcases u with _ | reqs
    · simp
    · rcases r with _ | r' <;> simp

/-- The attempt sequence makes at most `r + 1` submissions. -/
theorem attemptTrace_len_le (store : Store α ε) :
    ∀ (r base : Nat) (br : List (WriteReq α)),
    (attemptTrace store base r br).submissions.length ≤ r + 1 := by
  intro r
  induction r with
  | zero =>
    intro base br
    unfold attemptTrace
    rcases store base br with e | u
    · simp
    · rcases u with _ | reqs <;> simp
  | succ r' ih =>
    intro base br
    unfold attemptTrace
    rcases store base br with e | u
    · simp
    · rcases u with _ | reqs
      · simp
      · simpa using ih (base + 1) reqs

/-- If the retry budget was exhausted, all `r + 1` attempts were made and
no store error was captured. -/
theorem attemptTrace_threw (store : Store α ε) :
    ∀ (r base : Nat) (br : List (WriteReq α)),
    (attemptTrace store base r br).threw = true →
    (attemptTrace store base r br).submissions.length = r + 1 ∧
      (attemptTrace store base r br).dynamoError = none := by
  intro r
  induction r with
  | zero =>
    intro base br
    unfold attemptTrace
    rcases store base br with e | u
    · simp
    · rcases u with _ | reqs <;> simp
  | succ r' ih =>
    intro base br
    unfold attemptTrace
    rcases store base br with e | u
    · simp
    · rcases u with _ | reqs
      · simp
      · intro h
        have := ih (base + 1) reqs (by simpa using h)
        simpa using this

/-- Every submission of an attempt sequence except the last was answered
with a present unprocessed entry, and the following submission is exactly
that entry. -/
theorem attemptTrace_narrows (store : Store α ε) :
    ∀ (r base : Nat) (br : List (WriteReq α)),
    narrows store base (attemptTrace store base r br).submissions := by
  intro r
  induction r with
  | zero =>
    intro base br
    unfold attemptTrace narrows
    rcases store base br with e | u
    · simp
    · rcases u with _ | reqs <;> simp
  | succ r' ih =>
    intro base br
    unfold attemptTrace
    rcases hresp : store base br with e | u
    · simp [narrows]
    · rcases u with _ | reqs
      · simp [narrows]
      · intro j h
        simp only at h
        match j with
        | 0 =>
          refine ⟨reqs, by simpa using hresp, ?_⟩
          have hh := attemptTrace_head store (base + 1) r' reqs
          have hne := attemptTrace_subs_ne store (base + 1) r' reqs
          rcases hsub : (attemptTrace store (base + 1) r' reqs).submissions with
            _ | ⟨b, t⟩
          · exact absurd hsub hne
          · rw [hsub] at hh
            simp at hh
            simp [hsub, hh]
        | j' + 1 =>
          have h' : j' + 1 < (attemptTrace store (base + 1) r' reqs).submissions.length := by
            simpa [Nat.succ_lt_succ_iff] using h
          obtain ⟨rq, h1, h2⟩ := ih (base + 1) reqs j' h'
          refine ⟨rq, ?_, ?_⟩
          · simpa [Nat.add_assoc, Nat.add_comm 1 j'] using h1
          · simpa using h2

/-- Classification of the final submission of an attempt sequence: it was
answered with a store error (captured in `dynamoError`, requests left in
place), with no unprocessed entry (success), or with a present
unprocessed entry while the budget was exhausted (`threw`, the narrowed
requests never submitted). -/
theorem attemptTrace_last_spec (store : Store α ε) :
    ∀ (r base : Nat) (br last : List (WriteReq α)),
    (attemptTrace store base r br).submissions.getLast? = some last →
    (∃ e, store (base + (attemptTrace store base r br).submissions.length - 1) last =
          .failure e ∧
        (attemptTrace store base r br).dynamoError = some e ∧
        (attemptTrace store base r br).threw = false ∧
        (attemptTrace store base r br).finalRequests = last) ∨
      (store (base + (attemptTrace store base r br).submissions.length - 1) last =
          .success none ∧
        (attemptTrace store base r br).dynamoError = none ∧
        (attemptTrace store base r br).threw = false ∧
        (attemptTrace store base r br).finalRequests = last) ∨
      (store (base + (attemptTrace store base r br).submissions.length - 1) last =
          .success (some (attemptTrace store base r br).finalRequests) ∧
        (attemptTrace store base r br).dynamoError = none ∧
        (attemptTrace store base r br).threw = true) := by
  intro r
  induction r with
  | zero =>
    intro base br last hlast
    unfold attemptTrace at hlast ⊢
    rcases hresp : store base br with e | u <;> rw [hresp] at hlast
    · simp at hlast
      subst hlast
      exact Or.inl ⟨e, by simpa using hresp, rfl, rfl, rfl⟩
    · rcases u with _ | reqs <;> simp at hlast <;> subst hlast
      · exact Or.inr (Or.inl ⟨by simpa using hresp, rfl, rfl, rfl⟩)
      · exact Or.inr (Or.inr ⟨by simpa using hresp, rfl, rfl⟩)
  | succ r' ih =>
    intro base br last hlast
    unfold attemptTrace at hlast ⊢
    rcases hresp : store base br with e | u <;> rw [hresp] at hlast
    · simp at hlast
      subst hlast
      exact Or.inl ⟨e, by simpa using hresp, rfl, rfl, rfl⟩
    · rcases u with _ | reqs
      · simp at hlast
        subst hlast
        exact Or.inr (Or.inl ⟨by simpa using hresp, rfl, rfl, rfl⟩)
      · simp only at hlast ⊢
        have hne := attemptTrace_subs_ne store (base + 1) r' reqs
        rw [getLast?_cons_ne _ hne] at hlast
        have hlen1 : 1 ≤ (attemptTrace store (base + 1) r' reqs).submissions.length := by
          rcases hsub : (attemptTrace store (base + 1) r' reqs).submissions with _ | ⟨b, t⟩
          · exact absurd hsub hne
          · simp
        have harith :
            base + ((attemptTrace store (base + 1) r' reqs).submissions.length + 1) - 1 =
              base + 1 + (attemptTrace store (base + 1) r' reqs).submissions.length - 1 := by
          omega
        rcases ih (base + 1) reqs last hlast with h | h | h
        · obtain ⟨e, h1, h2, h3, h4⟩ := h
          exact Or.inl ⟨e, by simp only [List.length_cons]; rw [harith]; exact h1,
            h2, h3, h4⟩
        · exact Or.inr (Or.inl ⟨by simp only [List.length_cons]; rw [harith]; exact h.1,
            h.2.1, h.2.2.1, h.2.2.2⟩)
        · exact Or.inr (Or.inr ⟨by simp only [List.length_cons]; rw [harith]; exact h.1,
            h.2.1, h.2.2⟩)

/-- Dead letters over a concatenated trace split at the concatenation
point, with the base index advanced. -/
theorem dlqOfCalls_append (store : Store α ε) (tableName : String) :
    ∀ (xs ys : List (List (WriteReq α))) (base : Nat),
    dlqOfCalls store tableName base (xs ++ ys) =
      dlqOfCalls store tableName base xs ++
        dlqOfCalls store tableName (base + xs.length) ys := by
  intro xs
  induction xs with
  | nil => intro ys base; simp [dlqOfCalls]
  | cons b rest ih =>
    intro ys base
    simp only [List.cons_append, dlqOfCalls, List.length_cons, List.append_eq]
    rw [ih ys (base + 1)]
    have : base + 1 + rest.length = base + (rest.length + 1) := by omega
    rw [this, List.append_assoc]

/-- An attempt sequence contributes exactly the dead-letter entry of its
captured error (if any): one entry holding the requests submitted at the
failing attempt and the error, and no entry otherwise. -/
theorem attemptTrace_dlq (store : Store α ε) (tableName : String) :
    ∀ (r base : Nat) (br : List (WriteReq α)),
    dlqOfCalls store tableName base (attemptTrace store base r br).submissions =
      (match (attemptTrace store base r br).dynamoError with
       | some e => [⟨tableName, (attemptTrace store base r br).finalRequests, e⟩]
       | none => []) := by
  intro r
  induction r with
  | zero =>
    intro base br
    unfold attemptTrace
    rcases hresp : store base br with e | u
    · simp [dlqOfCalls, hresp]
    · rcases u with _ | reqs <;> simp [dlqOfCalls, hresp]
  | succ r' ih =>
    intro base br
    unfold attemptTrace
    rcases hresp : store base br with e | u
    · simp [dlqOfCalls, hresp]
    · rcases u with _ | reqs
      · simp [dlqOfCalls, hresp]
      · simp only [dlqOfCalls, hresp]
        exact ih (base + 1) reqs

/-- Running the `batchWrite` attempt closure under `promise-retry`
computes exactly the reference attempt sequence: the final
`batchRequests` and `dynamoError` are those of `attemptTrace`, the
submissions are appended to the sequence trace, the propagated error is
the unprocessed-items signal exactly when the budget was exhausted, and
the attempt numbers are consecutive from the starting number. -/
theorem bwAttempt_eq_failure (store : Store α ε) (base a : Nat)
    (s : AttemptState α ε) (e : ε)
    (h : store (base + s.seg.length) s.batchRequests = .failure e) :
    bwAttempt store base a s =
      ({ s with dynamoError := some e, seg := s.seg ++ [s.batchRequests] }, none) := by
  unfold bwAttempt
  rw [h]

theorem bwAttempt_eq_none (store : Store α ε) (base a : Nat)
    (s : AttemptState α ε)
    (h : store (base + s.seg.length) s.batchRequests = .success none) :
    bwAttempt store base a s =
      ({ s with seg := s.seg ++ [s.batchRequests] }, none) := by
  unfold bwAttempt
  rw [h]

theorem bwAttempt_eq_some (store : Store α ε) (base a : Nat)
    (s : AttemptState α ε) (reqs : List (WriteReq α))
    (h : store (base + s.seg.length) s.batchRequests = .success (some reqs)) :
    bwAttempt store base a s =
      ({ s with batchRequests := reqs, seg := s.seg ++ [s.batchRequests] },
        some ()) := by
  unfold bwAttempt
  rw [h]

theorem promiseRetryGo_bwAttempt (store : Store α ε) (base : Nat) :
    ∀ (r a : Nat) (s : AttemptState α ε), s.dynamoError = none →
    promiseRetryGo (bwAttempt store base) r a s =
      (⟨(attemptTrace store (base + s.seg.length) r s.batchRequests).finalRequests,
        (attemptTrace store (base + s.seg.length) r s.batchRequests).dynamoError,
        s.seg ++ (attemptTrace store (base + s.seg.length) r s.batchRequests).submissions⟩,
       (if (attemptTrace store (base + s.seg.length) r s.batchRequests).threw
        then some () else none),
       List.range' a
         (attemptTrace store (base + s.seg.length) r s.batchRequests).submissions.length) := by
  intro r
  induction r with
  | zero =>
    intro a s hde
    rcases hresp : store (base + s.seg.length) s.batchRequests with e | u
    · rw [promiseRetryGo, bwAttempt_eq_failure store base a s e hresp]
      unfold attemptTrace
      simp [hresp]
    · rcases u with _ | reqs
      · rw [promiseRetryGo, bwAttempt_eq_none store base a s hresp]
        unfold attemptTrace
        simp [hresp, hde]
      · rw [promiseRetryGo, bwAttempt_eq_some store base a s reqs hresp]
        unfold attemptTrace
        simp [hresp, hde]
  | succ r' ih =>
    intro a s hde
    rcases hresp : store (base + s.seg.length) s.batchRequests with e | u
    · rw [promiseRetryGo, bwAttempt_eq_failure store base a s e hresp]
      unfold attemptTrace
      simp [hresp]
    · rcases u with _ | reqs
      · rw [promiseRetryGo, bwAttempt_eq_none store base a s hresp]
        unfold attemptTrace
        simp [hresp, hde]
      · rw [promiseRetryGo, bwAttempt_eq_some store base a s reqs hresp]
        have hrec := ih (a + 1)
          ⟨reqs, s.dynamoError, s.seg ++ [s.batchRequests]⟩ (by simpa using hde)
        simp only at hrec
        rw [show (s.seg ++ [s.batchRequests]).length = s.seg.length + 1 by simp]
          at hrec
        rw [show base + (s.seg.length + 1) = base + s.seg.length + 1 by omega]
          at hrec
        rw [hde] at hrec
        unfold attemptTrace
        simp only [hresp]
        simp [hrec, List.append_assoc, List.range'_succ, hde]

/-- `asyncRetry` applied to the attempt closure with a fresh state (the
just dequeued batch, no captured error, empty trace). -/
theorem asyncRetry_bwAttempt (store : Store α ε) (base : Nat)
    (br : List (WriteReq α)) :
    asyncRetry (bwAttempt store base) ⟨br, none, []⟩ =
      (⟨(attemptTrace store base defaultRetries br).finalRequests,
        (attemptTrace store base defaultRetries br).dynamoError,
        (attemptTrace store base defaultRetries br).submissions⟩,
       (if (attemptTrace store base defaultRetries br).threw then some () else none),
       List.range' 1 (attemptTrace store base defaultRetries br).submissions.length) := by
  have h := promiseRetryGo_bwAttempt store base defaultRetries 1 ⟨br, none, []⟩ rfl
  simpa [asyncRetry] using h

/-! ### Reference form of the batch-writer loop -/

/-- How a `batchWrite` run ends: normal return, propagated
unprocessed-items signal, or the unreachable fuel exhaustion. -/
inductive BWKind where
  | finished
  | threw
  | ranOut
  deriving Repr, DecidableEq

/-- Accumulator-free description of one `batchWrite` run: the dead
letters and the grouped submission trace it produces, and how it ends. -/
structure BWRun (α ε : Type) where
  dlq : List (DLQItem α ε)
  groups : List (List (List (WriteReq α)))
  kind : BWKind
  deriving Repr, DecidableEq

/-- Reference recursion for the batch-writer loop, built directly from
`attemptTrace`: process the queue chunk by chunk, starting store-call
indices at `base`. -/
def bwRef (store : Store α ε) (tableName : String) :
    Nat → Nat → List (WriteReq α) → BWRun α ε
  | _, _, [] => ⟨[], [], .finished⟩
  | 0, _, _ :: _ => ⟨[], [], .ranOut⟩
  | fuel + 1, base, q@(_ :: _) =>
    let t := attemptTrace store base defaultRetries (q.take Limit)
    if t.threw then ⟨[], [t.submissions], .threw⟩
    else
      let rest := bwRef store tableName fuel (base + t.submissions.length)
        (q.drop Limit)
      ⟨(match t.dynamoError with
        | some e => [⟨tableName, t.finalRequests, e⟩]
        | none => []) ++ rest.dlq,
       t.submissions :: rest.groups, rest.kind⟩

/-- The batch-writer loop with accumulators is the reference recursion
with the accumulators appended. -/
theorem batchWriteGo_eq_bwRef (store : Store α ε) (tableName : String) :
    ∀ (fuel : Nat) (q : List (WriteReq α)) (dlq0 : List (DLQItem α ε))
      (G0 : List (List (List (WriteReq α)))),
    batchWriteGo store tableName fuel q dlq0 G0 =
      (match bwRef store tableName fuel G0.flatten.length q with
       | ⟨d, gs, .finished⟩ => .ok (dlq0 ++ d) (G0 ++ gs)
       | ⟨_, gs, .threw⟩ => .threw (G0 ++ gs)
       | ⟨_, gs, .ranOut⟩ => .outOfFuel (G0 ++ gs)) := by
  intro fuel
  induction fuel with
  | zero =>
    intro q dlq0 G0
    cases q with
    | nil => simp [batchWriteGo, bwRef]
    | cons b rest => simp [batchWriteGo, bwRef]
  | succ fuel ih =>
    intro q dlq0 G0
    cases q with
    | nil => simp [batchWriteGo, bwRef]
    | cons b rest =>
      rw [batchWriteGo, bwRef]
      rw [asyncRetry_bwAttempt store G0.flatten.length ((b :: rest).take Limit)]
      dsimp only
      rcases hthrew : (attemptTrace store G0.flatten.length defaultRetries
          ((b :: rest).take Limit)).threw with _ | _
      · simp only [hthrew, Bool.false_eq_true, if_false]
        simp only [ih]
        have hflat : (G0 ++
            [(attemptTrace store G0.flatten.length defaultRetries
              ((b :: rest).take Limit)).submissions]).flatten.length =
            G0.flatten.length +
              (attemptTrace store G0.flatten.length defaultRetries
                ((b :: rest).take Limit)).submissions.length := by
          simp
        simp only [hflat]
        rcases hrun : bwRef store tableName fuel
            (G0.flatten.length +
              (attemptTrace store G0.flatten.length defaultRetries
                ((b :: rest).take Limit)).submissions.length)
            ((b :: rest).drop Limit) with ⟨d, gs, k⟩
        simp only [hrun]
        rcases hde : (attemptTrace store G0.flatten.length defaultRetries
            ((b :: rest).take Limit)).dynamoError with _ | e <;>
          cases k <;> simp [hde]
      · simp [hthrew]

/-- `batchWrite` through the reference recursion. -/
theorem batchWrite_eq_bwRef (store : Store α ε) (tableName : String)
    (items : List α) :
    batchWrite store tableName items =
      (match bwRef store tableName items.length 0
          (items.map fun Item => ⟨Item⟩) with
       | ⟨d, gs, .finished⟩ => .ok d gs
       | ⟨_, gs, .threw⟩ => .threw gs
       | ⟨_, gs, .ranOut⟩ => .outOfFuel gs) := by
  rw [batchWrite, batchWriteGo_eq_bwRef]
  simp

/-! ### Chunking lemmas -/

theorem chunksGo_congr : ∀ (fuel fuel' : Nat) (l : List β),
    l.length ≤ fuel → l.length ≤ fuel' → chunksGo fuel l = chunksGo fuel' l := by
  intro fuel
  induction fuel with
  | zero =>
    intro fuel' l h h'
    have : l = [] := List.length_eq_zero.mp (Nat.le_zero.mp h)
    subst this
    cases fuel' <;> simp [chunksGo]
  | succ fuel ih =>
    intro fuel' l h h'
    cases l with
    | nil => cases fuel' <;> simp [chunksGo]
    | cons b rest =>
      cases fuel' with
      | zero => simp at h'
      | succ fuel' =>
        rw [chunksGo, chunksGo]
        congr 1
        exact ih fuel' ((b :: rest).drop Limit)
          (by simp [Limit] at h ⊢; omega) (by simp [Limit] at h' ⊢; omega)

theorem chunksGo_eq_chunksOfLimit (fuel : Nat) (l : List β)
    (h : l.length ≤ fuel) : chunksGo fuel l = chunksOfLimit l :=
  chunksGo_congr fuel l.length l h (Nat.le_refl _)

/-- The chunks reassemble to the original list. -/
theorem chunksOfLimit_flatten : ∀ (n : Nat) (l : List β), l.length ≤ n →
    (chunksOfLimit l).flatten = l := by
  intro n
  induction n with
  | zero =>
    intro l h
    have : l = [] := List.length_eq_zero.mp (Nat.le_zero.mp h)
    subst this
    simp [chunksOfLimit, chunksGo]
  | succ n ih =>
    intro l h
    cases l with
    | nil => simp [chunksOfLimit, chunksGo]
    | cons b rest =>
      rw [← chunksGo_eq_chunksOfLimit (n + 1) _ h, chunksGo]
      rw [chunksGo_eq_chunksOfLimit n _ (by simp [Limit] at h ⊢; omega)]
      rw [List.flatten_cons, ih _ (by simp [Limit] at h ⊢; omega)]
      exact List.take_append_drop Limit (b :: rest)

/-- Every chunk is nonempty and holds at most `Limit` elements. -/
theorem chunksOfLimit_mem : ∀ (n : Nat) (l : List β), l.length ≤ n →
    ∀ c ∈ chunksOfLimit l, c ≠ [] ∧ c.length ≤ Limit := by
  intro n
  induction n with
  | zero =>
    intro l h
    have : l = [] := List.length_eq_zero.mp (Nat.le_zero.mp h)
    subst this
    simp [chunksOfLimit, chunksGo]
  | succ n ih =>
    intro l h
    cases l with
    | nil => simp [chunksOfLimit, chunksGo]
    | cons b rest =>
      rw [← chunksGo_eq_chunksOfLimit (n + 1) _ h, chunksGo]
      rw [chunksGo_eq_chunksOfLimit n _ (by simp [Limit] at h ⊢; omega)]
      intro c hc
      rcases List.mem_cons.mp hc with hc | hc
      · subst hc
        refine ⟨by simp [Limit], by simp⟩
      · exact ih _ (by simp [Limit] at h ⊢; omega) c hc

/-- There are exactly `⌈length / Limit⌉` chunks. -/
theorem chunksOfLimit_length : ∀ (n : Nat) (l : List β), l.length ≤ n →
    (chunksOfLimit l).length = (l.length + Limit - 1) / Limit := by
  intro n
  induction n with
  | zero =>
    intro l h
    have : l = [] := List.length_eq_zero.mp (Nat.le_zero.mp h)
    subst this
    simp [chunksOfLimit, chunksGo, Limit]
  | succ n ih =>
    intro l h
    cases l with
    | nil => simp [chunksOfLimit, chunksGo, Limit]
    | cons b rest =>
      rw [← chunksGo_eq_chunksOfLimit (n + 1) _ h, chunksGo]
      rw [chunksGo_eq_chunksOfLimit n _ (by simp [Limit] at h ⊢; omega)]
      rw [List.length_cons, ih _ (by simp [Limit] at h ⊢; omega)]
      have hlen : ((b :: rest).drop Limit).length = (b :: rest).length - Limit := by
        simp
      rw [hlen]
      rcases Nat.lt_or_ge (b :: rest).length (Limit + 1) with hsm | hlg
      · have h1 : (b :: rest).length - Limit = 0 := by omega
        have h2 : (b :: rest).length + Limit - 1 =
            ((b :: rest).length - 1) + Limit := by
          have hpos : 0 < (b :: rest).length := by simp
          omega
        rw [h1, h2, Nat.add_div_right _ (by simp [Limit])]
        rw [Nat.div_eq_of_lt
          (show (b :: rest).length - 1 < Limit by
            simp [Limit] at hsm ⊢; omega)]
        simp [Limit]
      · have h1 : (b :: rest).length - Limit + Limit - 1 =
            (b :: rest).length - 1 := by omega
        have h2 : (b :: rest).length + Limit - 1 =
            ((b :: rest).length - 1) + Limit := by omega
        rw [h1, h2, Nat.add_div_right _ (by simp [Limit])]

/-! ### Properties of the batch-writer run -/

/-- With fuel at least the queue length, the fuel never runs out. -/
theorem bwRef_kind_ne_ranOut (store : Store α ε) (tableName : String) :
    ∀ (fuel base : Nat) (q : List (WriteReq α)), q.length ≤ fuel →
    (bwRef store tableName fuel base q).kind ≠ .ranOut := by
  intro fuel
  induction fuel with
  | zero =>
    intro base q h
    have : q = [] := List.length_eq_zero.mp (Nat.le_zero.mp h)
    subst this
    simp [bwRef]
  | succ fuel ih =>
    intro base q h
    cases q with
    | nil => simp [bwRef]
    | cons b rest =>
      rw [bwRef]
      dsimp only
      rcases hthrew : (attemptTrace store base defaultRetries
          ((b :: rest).take Limit)).threw with _ | _
      · simp only [Bool.false_eq_true, if_false]
        exact ih _ ((b :: rest).drop Limit) (by simp [Limit] at h ⊢; omega)
      · simp

/-- In a normally finished run, every dequeued batch opens its attempt
group: the group heads are exactly the chunks of the queue. -/
theorem bwRef_heads (store : Store α ε) (tableName : String) :
    ∀ (fuel base : Nat) (q : List (WriteReq α)),
    (bwRef store tableName fuel base q).kind = .finished →
    (bwRef store tableName fuel base q).groups.map List.head? =
      (chunksGo fuel q).map some := by
  intro fuel
  induction fuel with
  | zero =>
    intro base q h
    cases q with
    | nil => simp [bwRef, chunksGo]
    | cons b rest => simp [bwRef] at h
  | succ fuel ih =>
    intro base q h
    cases q with
    | nil => simp [bwRef, chunksGo]
    | cons b rest =>
      rw [bwRef] at h ⊢
      dsimp only at h ⊢
      rcases hthrew : (attemptTrace store base defaultRetries
          ((b :: rest).take Limit)).threw with _ | _
      · rw [hthrew] at h
        simp only [Bool.false_eq_true, if_false] at h ⊢
        rw [chunksGo]
        simp only [List.map_cons]
        rw [attemptTrace_head store base defaultRetries ((b :: rest).take Limit)]
        rw [ih _ ((b :: rest).drop Limit) h]
      · rw [hthrew] at h
        simp at h

/-- In a normally finished run, the returned dead letters are exactly
those determined by the submission trace: one entry per store call that
failed with an error, carrying that call's requests and error. -/
theorem bwRef_dlq_eq (store : Store α ε) (tableName : String) :
    ∀ (fuel base : Nat) (q : List (WriteReq α)),
    (bwRef store tableName fuel base q).kind = .finished →
    (bwRef store tableName fuel base q).dlq =
      dlqOfCalls store tableName base
        (bwRef store tableName fuel base q).groups.flatten := by
  intro fuel
  induction fuel with
  | zero =>
    intro base q h
    cases q with
    | nil => simp [bwRef, dlqOfCalls]
    | cons b rest => simp [bwRef] at h
  | succ fuel ih =>
    intro base q h
    cases q with
    | nil => simp [bwRef, dlqOfCalls]
    | cons b rest =>
      rw [bwRef] at h ⊢
      dsimp only at h ⊢
      rcases hthrew : (attemptTrace store base defaultRetries
          ((b :: rest).take Limit)).threw with _ | _
      · rw [hthrew] at h
        simp only [Bool.false_eq_true, if_false] at h ⊢
        rw [List.flatten_cons, dlqOfCalls_append,
          attemptTrace_dlq store tableName defaultRetries base
            ((b :: rest).take Limit)]
        rw [ih _ ((b :: rest).drop Limit) h]
      · rw [hthrew] at h
        simp at h

/-- Every group of the submission trace narrows through unprocessed
items from its base index (the number of store calls made by earlier
groups), is nonempty and makes at most 8 submissions. -/
theorem bwRef_group_spec (store : Store α ε) (tableName : String) :
    ∀ (fuel base : Nat) (q : List (WriteReq α)) (gi : Nat)
      (g : List (List (WriteReq α))),
    (bwRef store tableName fuel base q).groups[gi]? = some g →
    narrows store
        (base + (((bwRef store tableName fuel base q).groups.take gi).flatten.length))
        g ∧
      g ≠ [] ∧ g.length ≤ defaultRetries + 1 := by
  intro fuel
  induction fuel with
  | zero =>
    intro base q gi g hg
    cases q with
    | nil => simp [bwRef] at hg
    | cons b rest => simp [bwRef] at hg
  | succ fuel ih =>
    intro base q gi g hg
    cases q with
    | nil => simp [bwRef] at hg
    | cons b rest =>
      rw [bwRef] at hg ⊢
      dsimp only at hg ⊢
      rcases hthrew : (attemptTrace store base defaultRetries
          ((b :: rest).take Limit)).threw with _ | _
      · rw [hthrew] at hg
        simp only [Bool.false_eq_true, if_false] at hg ⊢
        cases gi with
        | zero =>
          simp only [List.getElem?_cons_zero, Option.some.injEq] at hg
          subst hg
          refine ⟨?_, attemptTrace_subs_ne store base defaultRetries _,
            attemptTrace_len_le store defaultRetries base _⟩
          simpa using attemptTrace_narrows store defaultRetries base
            ((b :: rest).take Limit)
        | succ gi =>
          simp only [List.getElem?_cons_succ] at hg
          have := ih (base + (attemptTrace store base defaultRetries
              ((b :: rest).take Limit)).submissions.length)
            ((b :: rest).drop Limit) gi g hg
          refine ⟨?_, this.2.1, this.2.2⟩
          have harith : base + (attemptTrace store base defaultRetries
              ((b :: rest).take Limit)).submissions.length +
              (((bwRef store tableName fuel
                (base + (attemptTrace store base defaultRetries
                  ((b :: rest).take Limit)).submissions.length)
                ((b :: rest).drop Limit)).groups.take gi).flatten.length) =
              base + (((attemptTrace store base defaultRetries
                ((b :: rest).take Limit)).submissions ::
                (bwRef store tableName fuel
                  (base + (attemptTrace store base defaultRetries
                    ((b :: rest).take Limit)).submissions.length)
                  ((b :: rest).drop Limit)).groups).take (gi + 1)).flatten.length := by
            simp
            omega
          rw [← harith]
          exact this.1
      · rw [hthrew] at hg
        simp only [show ((true = true) = True) from by simp, if_true] at hg ⊢
        cases gi with
        | zero =>
          simp only [List.getElem?_cons_zero, Option.some.injEq] at hg
          subst hg
          refine ⟨?_, attemptTrace_subs_ne store base defaultRetries _,
            attemptTrace_len_le store defaultRetries base _⟩
          simpa using attemptTrace_narrows store defaultRetries base
            ((b :: rest).take Limit)
        | succ gi => simp at hg

/-- A propagated retry-exhaustion signal comes from an unprocessed-items
report: the final submission of the run was answered with a present
unprocessed entry (never by a store error). -/
theorem bwRef_threw_spec (store : Store α ε) (tableName : String) :
    ∀ (fuel base : Nat) (q : List (WriteReq α)),
    (bwRef store tableName fuel base q).kind = .threw →
    ∃ last reqs,
      (bwRef store tableName fuel base q).groups.flatten.getLast? = some last ∧
      store (base + (bwRef store tableName fuel base q).groups.flatten.length - 1)
          last = .success (some reqs) := by
  intro fuel
  induction fuel with
  | zero =>
    intro base q h
    cases q with
    | nil => simp [bwRef] at h
    | cons b rest => simp [bwRef] at h
  | succ fuel ih =>
    intro base q h
    cases q with
    | nil => simp [bwRef] at h
    | cons b rest =>
      rw [bwRef] at h ⊢
      dsimp only at h ⊢
      rcases hthrew : (attemptTrace store base defaultRetries
          ((b :: rest).take Limit)).threw with _ | _
      · rw [hthrew] at h
        simp only [Bool.false_eq_true, if_false] at h ⊢
        obtain ⟨last, reqs, h1, h2⟩ := ih (base + (attemptTrace store base
            defaultRetries ((b :: rest).take Limit)).submissions.length)
          ((b :: rest).drop Limit) h
        have hne : (bwRef store tableName fuel
            (base + (attemptTrace store base defaultRetries
              ((b :: rest).take Limit)).submissions.length)
            ((b :: rest).drop Limit)).groups.flatten ≠ [] := by
          intro hemp
          rw [hemp] at h1
          simp at h1
        refine ⟨last, reqs, ?_, ?_⟩
        · rw [List.flatten_cons, List.getLast?_append]
          rw [h1]
          simp
        · have harith : base + ((attemptTrace store base defaultRetries
              ((b :: rest).take Limit)).submissions ++
              (bwRef store tableName fuel
                (base + (attemptTrace store base defaultRetries
                  ((b :: rest).take Limit)).submissions.length)
                ((b :: rest).drop Limit)).groups.flatten).length - 1 =
              base + (attemptTrace store base defaultRetries
                ((b :: rest).take Limit)).submissions.length +
                (bwRef store tableName fuel
                  (base + (attemptTrace store base defaultRetries
                    ((b :: rest).take Limit)).submissions.length)
                  ((b :: rest).drop Limit)).groups.flatten.length - 1 := by
            simp
            omega
          rw [List.flatten_cons, harith]
          exact h2
      · simp only [show ((true = true) = True) from by simp, if_true] at h ⊢
        have hne := attemptTrace_subs_ne store base defaultRetries
          ((b :: rest).take Limit)
        rcases hsub : (attemptTrace store base defaultRetries
            ((b :: rest).take Limit)).submissions.getLast? with _ | last
        · exact absurd (List.getLast?_eq_none_iff.mp hsub) hne
        · rcases attemptTrace_last_spec store defaultRetries base
              ((b :: rest).take Limit) last hsub with hcase | hcase | hcase
          · obtain ⟨e, _, _, hfalse, _⟩ := hcase
            rw [hthrew] at hfalse
            exact absurd hfalse (by simp)
          · obtain ⟨_, _, hfalse, _⟩ := hcase
            rw [hthrew] at hfalse
            exact absurd hfalse (by simp)
          · obtain ⟨hstore, _, _⟩ := hcase
            refine ⟨last, (attemptTrace store base defaultRetries
              ((b :: rest).take Limit)).finalRequests, ?_, ?_⟩
            · simpa using hsub
            · simpa using hstore

/-- Within a narrowing group, a submission answered with a present
unprocessed entry is followed by exactly that entry. -/
theorem narrows_chain (store : Store α ε) (b : Nat)
    (g : List (List (WriteReq α))) (hn : narrows store b g) (j : Nat)
    (b1 b2 reqs : List (WriteReq α)) (h1 : g[j]? = some b1)
    (h2 : g[j + 1]? = some b2)
    (hs : store (b + j) b1 = .success (some reqs)) : b2 = reqs := by
  obtain ⟨hlt2, hg2⟩ := List.getElem?_eq_some_iff.mp h2
  obtain ⟨hlt1, hg1⟩ := List.getElem?_eq_some_iff.mp h1
  obtain ⟨rq, hn1, hn2⟩ := hn j hlt2
  have e1 : g.get ⟨j, Nat.lt_of_succ_lt hlt2⟩ = b1 := hg1
  rw [e1] at hn1
  rw [hn1] at hs
  simp only [BatchWriteResult.success.injEq, Option.some.injEq] at hs
  have e2 : g.get ⟨j + 1, hlt2⟩ = b2 := hg2
  rw [← e2, hn2]
  exact hs

/-- Chain property of the whole submission trace: whenever the store
answers submission `j` with a present unprocessed entry and a submission
`j + 1` exists, that next submission is exactly the unprocessed entry. -/
theorem bwRef_chain (store : Store α ε) (tableName : String) :
    ∀ (fuel base : Nat) (q : List (WriteReq α)) (j : Nat)
      (b1 b2 reqs : List (WriteReq α)),
    (bwRef store tableName fuel base q).groups.flatten[j]? = some b1 →
    (bwRef store tableName fuel base q).groups.flatten[j + 1]? = some b2 →
    store (base + j) b1 = .success (some reqs) →
    b2 = reqs := by
  intro fuel
  induction fuel with
  | zero =>
    intro base q j b1 b2 reqs h1 h2 hs
    cases q with
    | nil => simp [bwRef] at h1
    | cons b rest => simp [bwRef] at h1
  | succ fuel ih =>
    intro base q j b1 b2 reqs h1 h2 hs
    cases q with
    | nil => simp [bwRef] at h1
    | cons b rest =>
      rw [bwRef] at h1 h2
      dsimp only at h1 h2
      rcases hthrew : (attemptTrace store base defaultRetries
          ((b :: rest).take Limit)).threw with _ | _
      · rw [hthrew] at h1 h2
        simp only [Bool.false_eq_true, if_false, List.flatten_cons] at h1 h2
        by_cases hj : j + 1 < (attemptTrace store base defaultRetries
            ((b :: rest).take Limit)).submissions.length
        · rw [List.getElem?_append_left (Nat.lt_of_succ_lt hj)] at h1
          rw [List.getElem?_append_left hj] at h2
          exact narrows_chain store base _
            (attemptTrace_narrows store defaultRetries base _) j b1 b2 reqs
            h1 h2 hs
        · by_cases hj2 : j + 1 = (attemptTrace store base defaultRetries
              ((b :: rest).take Limit)).submissions.length
          · rw [List.getElem?_append_left (by omega)] at h1
            have hlast : (attemptTrace store base defaultRetries
                ((b :: rest).take Limit)).submissions.getLast? = some b1 := by
              rw [List.getLast?_eq_getElem?]
              rw [show (attemptTrace store base defaultRetries
                ((b :: rest).take Limit)).submissions.length - 1 = j by omega]
              exact h1
            rcases attemptTrace_last_spec store defaultRetries base
                ((b :: rest).take Limit) b1 hlast with hcase | hcase | hcase
            · obtain ⟨e, hst, _, _, _⟩ := hcase
              rw [show base + (attemptTrace store base defaultRetries
                ((b :: rest).take Limit)).submissions.length - 1 = base + j
                by omega] at hst
              rw [hst] at hs
              exact absurd hs (by simp)
            · obtain ⟨hst, _, _, _⟩ := hcase
              rw [show base + (attemptTrace store base defaultRetries
                ((b :: rest).take Limit)).submissions.length - 1 = base + j
                by omega] at hst
              rw [hst] at hs
              simp at hs
            · obtain ⟨_, _, htru⟩ := hcase
              rw [hthrew] at htru
              exact absurd htru (by simp)
          · have hge : (attemptTrace store base defaultRetries
                ((b :: rest).take Limit)).submissions.length ≤ j := by omega
            rw [List.getElem?_append_right hge] at h1
            rw [List.getElem?_append_right (by omega)] at h2
            rw [show j + 1 - (attemptTrace store base defaultRetries
              ((b :: rest).take Limit)).submissions.length =
              (j - (attemptTrace store base defaultRetries
                ((b :: rest).take Limit)).submissions.length) + 1 by omega] at h2
            rw [show base + j = base + (attemptTrace store base defaultRetries
              ((b :: rest).take Limit)).submissions.length +
              (j - (attemptTrace store base defaultRetries
                ((b :: rest).take Limit)).submissions.length) by omega] at hs
            exact ih _ ((b :: rest).drop Limit) _ b1 b2 reqs h1 h2 hs
      · rw [hthrew] at h1 h2
        simp only [show ((true = true) = True) from by simp, if_true,
          List.flatten_cons, List.flatten_nil, List.append_nil] at h1 h2
        exact narrows_chain store base _
          (attemptTrace_narrows store defaultRetries base _) j b1 b2 reqs
          h1 h2 hs

/-! ### Properties of the migration engine -/

/-- `batchWrite` supplies sufficient fuel, so it never reports fuel
exhaustion. -/
theorem batchWrite_ne_outOfFuel (store : Store α ε) (tableName : String)
    (items : List α) (gs : List (List (List (WriteReq α)))) :
    batchWrite store tableName items ≠ .outOfFuel gs := by
  intro h
  rw [batchWrite_eq_bwRef] at h
  have hk := bwRef_kind_ne_ranOut store tableName items.length 0
    (items.map fun Item => ⟨Item⟩) (by simp)
  rcases hrun : bwRef store tableName items.length 0
      (items.map fun Item => ⟨Item⟩) with ⟨d, g, k⟩
  rw [hrun] at h hk
  cases k with
  | finished => simp at h
  | threw => simp at h
  | ranOut => exact hk rfl

/-- Counter bookkeeping of the scan loop: on normal completion starting
at page `i`, the scan count exceeds `i`, `totalItems` grew by the page
sizes of the scanned pages, `migratedItems` by their filtered sizes, and
`batch` by the number of pages. -/
theorem migrateLoop_counts (a : MigrateArgs α κ ε) :
    ∀ (fuel i : Nat) (c : Counts) (d : List (DLQItem α ε)) (c' : Counts)
      (d' : List (DLQItem α ε)) (s : Nat),
    migrateLoop a fuel i c d = .ok c' d' s →
    i < s ∧
      c'.totalItems = c.totalItems +
        ((List.range' i (s - i)).map fun p => (a.scanOracle p).Items.length).sum ∧
      c'.migratedItems = c.migratedItems +
        ((List.range' i (s - i)).map
          fun p => ((a.scanOracle p).Items.filter a.filterCb).length).sum ∧
      c'.batch = c.batch + (s - i) := by
  intro fuel
  induction fuel with
  | zero =>
    intro i c d c' d' s h
    simp [migrateLoop] at h
  | succ fuel ih =>
    intro i c d c' d' s h
    rw [migrateLoop] at h
    dsimp only at h
    rcases hmode : a.mode with _ | _
    · rw [hmode] at h
      dsimp only at h
      rcases hcur : (a.scanOracle i).LastEvaluatedKey with _ | k
      · rw [hcur] at h
        dsimp only at h
        simp only [RunOutcome.ok.injEq] at h
        obtain ⟨hc, hd, hs⟩ := h
        subst hc
        subst hd
        subst hs
        refine ⟨by omega, ?_, ?_, ?_⟩
        · simp [show i + 1 - i = 1 from by omega, List.range'_one]
        · simp [show i + 1 - i = 1 from by omega, List.range'_one]
        · simp [show i + 1 - i = 1 from by omega]
      · rw [hcur] at h
        dsimp only at h
        obtain ⟨hlt, ht, hm2, hb⟩ := ih (i + 1) _ d c' d' s h
        dsimp only at ht hm2 hb
        have hsz : s - i = (s - (i + 1)) + 1 := by omega
        refine ⟨by omega, ?_, ?_, ?_⟩
        · rw [hsz, List.range'_succ]
          simp only [List.map_cons, List.sum_cons]
          omega
        · rw [hsz, List.range'_succ]
          simp only [List.map_cons, List.sum_cons]
          omega
        · omega
    · rw [hmode] at h
      dsimp only at h
      rcases hbw : batchWrite a.writeStore a.TableName
          (((a.scanOracle i).Items.filter a.filterCb).map a.cb) with
        ⟨bdlq, gs⟩ | ⟨gs⟩ | ⟨gs⟩
      · rw [hbw] at h
        dsimp only at h
        rcases hcur : (a.scanOracle i).LastEvaluatedKey with _ | k
        · rw [hcur] at h
          dsimp only at h
          simp only [RunOutcome.ok.injEq] at h
          obtain ⟨hc, hd, hs⟩ := h
          subst hc
          subst hd
          subst hs
          refine ⟨by omega, ?_, ?_, ?_⟩
          · simp [show i + 1 - i = 1 from by omega, List.range'_one]
          · simp [show i + 1 - i = 1 from by omega, List.range'_one]
          · simp [show i + 1 - i = 1 from by omega]
        · rw [hcur] at h
          dsimp only at h
          obtain ⟨hlt, ht, hm2, hb⟩ := ih (i + 1) _ _ c' d' s h
          dsimp only at ht hm2 hb
          have hsz : s - i = (s - (i + 1)) + 1 := by omega
          refine ⟨by omega, ?_, ?_, ?_⟩
          · rw [hsz, List.range'_succ]
            simp only [List.map_cons, List.sum_cons]
            omega
          · rw [hsz, List.range'_succ]
            simp only [List.map_cons, List.sum_cons]
            omega
          · omega
      · rw [hbw] at h
        simp at h
      · rw [hbw] at h
        simp at h

/-- In Batch Mode the scan loop never appends to the engine's
dead-letter queue: on normal completion it returns the queue it was
started with. -/
theorem migrateLoop_batch_dlq (a : MigrateArgs α κ ε) (hm : a.mode = .batch) :
    ∀ (fuel i : Nat) (c : Counts) (d : List (DLQItem α ε)) (c' : Counts)
      (d' : List (DLQItem α ε)) (s : Nat),
    migrateLoop a fuel i c d = .ok c' d' s → d' = d := by
  intro fuel
  induction fuel with
  | zero =>
    intro i c d c' d' s h
    simp [migrateLoop] at h
  | succ fuel ih =>
    intro i c d c' d' s h
    rw [migrateLoop] at h
    dsimp only at h
    rw [hm] at h
    dsimp only at h
    rcases hcur : (a.scanOracle i).LastEvaluatedKey with _ | k
    · rw [hcur] at h
      dsimp only at h
      simp only [RunOutcome.ok.injEq] at h
      exact h.2.1.symm
    · rw [hcur] at h
      dsimp only at h
      exact ih (i + 1) _ d c' d' s h

/-- Termination of the scan loop: if page `i + m` is the first page from
`i` without a continuation cursor and no batched write aborts the run,
the loop completes normally having scanned exactly the pages
`i, …, i + m`. -/
theorem migrateLoop_term (a : MigrateArgs α κ ε)
    (hw : ∀ (its : List α) (gs : List (List (List (WriteReq α)))),
      batchWrite a.writeStore a.TableName its ≠ .threw gs) :
    ∀ (m fuel i : Nat) (c : Counts) (d : List (DLQItem α ε)),
    m < fuel →
    (∀ j, j < m → (a.scanOracle (i + j)).LastEvaluatedKey ≠ none) →
    (a.scanOracle (i + m)).LastEvaluatedKey = none →
    ∃ c' d', migrateLoop a fuel i c d = .ok c' d' (i + m + 1) := by
  intro m
  induction m with
  | zero =>
    intro fuel i c d hf hprev hnone
    cases fuel with
    | zero => omega
    | succ fuel =>
      rw [migrateLoop]
      dsimp only
      rw [show i + 0 = i from rfl] at hnone
      rcases hmode : a.mode with _ | _
      · rw [hnone]
        exact ⟨_, _, rfl⟩
      · rcases hbw : batchWrite a.writeStore a.TableName
            (((a.scanOracle i).Items.filter a.filterCb).map a.cb) with
          ⟨bdlq, gs⟩ | ⟨gs⟩ | ⟨gs⟩
        · rw [hnone]
          exact ⟨_, _, rfl⟩
        · exact absurd hbw (hw _ _)
        · exact absurd hbw (batchWrite_ne_outOfFuel _ _ _ _)
  | succ m ih =>
    intro fuel i c d hf hprev hnone
    cases fuel with
    | zero => omega
    | succ fuel =>
      rw [migrateLoop]
      dsimp only
      rcases hcur : (a.scanOracle i).LastEvaluatedKey with _ | k
      · exact absurd hcur (by simpa using hprev 0 (by omega))
      · have hprev' : ∀ j, j < m →
            (a.scanOracle (i + 1 + j)).LastEvaluatedKey ≠ none := by
          intro j hj
          have := hprev (j + 1) (by omega)
          simpa [show i + (j + 1) = i + 1 + j from by omega] using this
        have hnone' : (a.scanOracle (i + 1 + m)).LastEvaluatedKey = none := by
          simpa [show i + (m + 1) = i + 1 + m from by omega] using hnone
        rcases hmode : a.mode with _ | _
        · dsimp only
          obtain ⟨c', d', hrec⟩ := ih fuel (i + 1) _ d (by omega) hprev' hnone'
          refine ⟨c', d', ?_⟩
          rw [hrec]
          congr 1
          omega
        · rcases hbw : batchWrite a.writeStore a.TableName
              (((a.scanOracle i).Items.filter a.filterCb).map a.cb) with
            ⟨bdlq, gs⟩ | ⟨gs⟩ | ⟨gs⟩
          · dsimp only
            obtain ⟨c', d', hrec⟩ := ih fuel (i + 1) _ _ (by omega) hprev' hnone'
            refine ⟨c', d', ?_⟩
            rw [hrec]
            congr 1
            omega
          · exact absurd hbw (hw _ _)
          · exact absurd hbw (batchWrite_ne_outOfFuel _ _ _ _)

/-! ### Attempt trajectory of the Retry Controller -/

/-- State of the retried operation before attempt `a + k`, assuming all
earlier attempts ran (mutations made by failing attempts persist). -/
def retryStates (op : Nat → σ → σ × Option ε) (a : Nat) (s : σ) : Nat → σ
  | 0 => s
  | k + 1 => (op (a + k) (retryStates op a s k)).1

theorem retryStates_shift (op : Nat → σ → σ × Option ε) (a : Nat) (s : σ) :
    ∀ k, retryStates op (a + 1) (op a s).1 k = retryStates op a s (k + 1) := by
  intro k
  induction k with
  | zero => simp [retryStates]
  | succ k ihk =>
    rw [retryStates, retryStates, ihk]
    rw [show a + 1 + k = a + (k + 1) from by omega]

/-- Full specification of the retry loop: attempt numbers are
consecutive from the start, at most `r + 1` attempts run, all non-final
attempts raised, the returned error is the final attempt's, an error is
returned only when all `r + 1` attempts ran, and the final state is the
trajectory state after the last attempt. -/
theorem promiseRetryGo_spec (op : Nat → σ → σ × Option ε) :
    ∀ (r a : Nat) (s : σ),
    (promiseRetryGo op r a s).2.2 =
        List.range' a (promiseRetryGo op r a s).2.2.length ∧
      1 ≤ (promiseRetryGo op r a s).2.2.length ∧
      (promiseRetryGo op r a s).2.2.length ≤ r + 1 ∧
      (∀ k, k + 1 < (promiseRetryGo op r a s).2.2.length →
        ((op (a + k) (retryStates op a s k)).2).isSome) ∧
      (promiseRetryGo op r a s).2.1 =
        (op (a + ((promiseRetryGo op r a s).2.2.length - 1))
          (retryStates op a s ((promiseRetryGo op r a s).2.2.length - 1))).2 ∧
      ((promiseRetryGo op r a s).2.1.isSome →
        (promiseRetryGo op r a s).2.2.length = r + 1) ∧
      (promiseRetryGo op r a s).1 =
        retryStates op a s (promiseRetryGo op r a s).2.2.length := by
  intro r
  induction r with
  | zero =>
    intro a s
    rw [promiseRetryGo]
    rcases hop : op a s with ⟨s1, e⟩
    rcases e with _ | e
    · dsimp only
      refine ⟨by simp [List.range'_one], by simp, by simp, ?_, ?_, by simp, ?_⟩
      · intro k hk
        simp at hk
      · simp [retryStates, hop]
      · simp [retryStates, hop]
    · dsimp only
      refine ⟨by simp [List.range'_one], by simp, by simp, ?_, ?_, by simp, ?_⟩
      · intro k hk
        simp at hk
      · simp [retryStates, hop]
      · simp [retryStates, hop]
  | succ r' ih =>
    intro a s
    rw [promiseRetryGo]
    rcases hop : op a s with ⟨s1, e⟩
    rcases e with _ | e
    · dsimp only
      refine ⟨by simp [List.range'_one], by simp,
        by simp only [List.length_cons, List.length_nil]; omega, ?_, ?_,
        by simp, ?_⟩
      · intro k hk
        simp at hk
      · simp [retryStates, hop]
      · simp [retryStates, hop]
    · dsimp only
      obtain ⟨ih1, ih2, ih3, ih4, ih5, ih6, ih7⟩ := ih (a + 1) s1
      have hshift : ∀ k, retryStates op (a + 1) s1 k = retryStates op a s (k + 1) := by
        intro k
        have := retryStates_shift op a s k
        rw [hop] at this
        exact this
      refine ⟨?_, by simp,
        by simp only [List.length_cons]; omega, ?_, ?_, ?_, ?_⟩
      · simp only [List.length_cons]
        rw [List.range'_succ]
        congr 1
      · intro k hk
        simp only [List.length_cons] at hk
        cases k with
        | zero => simp [retryStates, hop]
        | succ k =>
          have := ih4 k (by omega)
          rw [hshift k] at this
          rw [show a + 1 + k = a + (k + 1) from by omega] at this
          exact this
      · simp only [List.length_cons, Nat.add_sub_cancel]
        rw [ih5]
        rw [hshift ((promiseRetryGo op r' (a + 1) s1).2.2.length - 1)]
        rw [show (promiseRetryGo op r' (a + 1) s1).2.2.length - 1 + 1 =
          (promiseRetryGo op r' (a + 1) s1).2.2.length from by omega]
        rw [show a + 1 + ((promiseRetryGo op r' (a + 1) s1).2.2.length - 1) =
          a + (promiseRetryGo op r' (a + 1) s1).2.2.length from by omega]
      · intro hsome
        simp only [List.length_cons]
        rw [ih6 hsome]
      · simp only [List.length_cons]
        rw [ih7]
        rw [hshift (promiseRetryGo op r' (a + 1) s1).2.2.length]

/-! ### Bridging batchWrite and the reference run -/

/-- The submission trace of `batchWrite` is that of the reference run. -/
theorem batchWrite_groups_eq (store : Store α ε) (tableName : String)
    (items : List α) :
    (batchWrite store tableName items).groups =
      (bwRef store tableName items.length 0
        (items.map fun Item => ⟨Item⟩)).groups := by
  rw [batchWrite_eq_bwRef]
  rcases bwRef store tableName items.length 0 (items.map fun Item => ⟨Item⟩) with
    ⟨d, gs, k⟩
  cases k <;> rfl

/-- Under a store that always succeeds with no unprocessed entry, an
attempt sequence is a single successful submission. -/
theorem attemptTrace_clean (store : Store α ε)
    (hstore : ∀ i b, store i b = .success none) (base r : Nat)
    (br : List (WriteReq α)) :
    attemptTrace store base r br = ⟨[br], br, none, false⟩ := by
  unfold attemptTrace
  rw [hstore]

/-- Under a store that always succeeds with no unprocessed entry, the
reference run submits each chunk exactly once and dead-letters
nothing. -/
theorem bwRef_clean (store : Store α ε) (tableName : String)
    (hstore : ∀ i b, store i b = .success none) :
    ∀ (fuel base : Nat) (q : List (WriteReq α)), q.length ≤ fuel →
    bwRef store tableName fuel base q =
      ⟨[], (chunksGo fuel q).map fun b => [b], .finished⟩ := by
  intro fuel
  induction fuel with
  | zero =>
    intro base q hq
    have : q = [] := List.length_eq_zero.mp (Nat.le_zero.mp hq)
    subst this
    simp [bwRef, chunksGo]
  | succ fuel ih =>
    intro base q hq
    cases q with
    | nil => simp [bwRef, chunksGo]
    | cons b rest =>
      rw [bwRef, chunksGo]
      rw [attemptTrace_clean store hstore base defaultRetries
        ((b :: rest).take Limit)]
      dsimp only
      simp only [Bool.false_eq_true, if_false]
      rw [ih _ ((b :: rest).drop Limit) (by simp [Limit] at hq ⊢; omega)]
      simp

theorem flatten_map_singleton : ∀ l : List γ, (l.map fun b => [b]).flatten = l := by
  intro l
  induction l with
  | nil => simp
  | cons x xs ih => simp [ih]

/-! ### Concrete fixtures -/

/-- A store that applies every submission in full. -/
def cleanStore : Store Nat Nat := fun _ _ => .success none

/-- A store whose batched-write call always rejects with error 7. -/
def failStore : Store Nat Nat := fun _ _ => .failure 7

/-- A store that reports every request of the first submission as
unprocessed, then succeeds fully. -/
def echoOnceStore : Store Nat Nat :=
  fun i b => if i = 0 then .success (some b) else .success none

/-- A store that reports every submission entirely unprocessed. -/
def alwaysUnprocStore : Store Nat Nat := fun _ b => .success (some b)

/-- 26 items for the resubmission scenario. -/
def items26 : List Nat := List.replicate 26 0

/-- A 30-item table delivered as a 25-item page with a cursor followed
by a 5-item page without one. -/
def pages30 : Nat → Page Nat Nat :=
  fun i => if i = 0 then ⟨List.replicate 25 0, some 0⟩
    else ⟨List.replicate 5 0, none⟩

/-- Stream-mode run over the 30-item table against a clean store. -/
def args30 : MigrateArgs Nat Nat Nat :=
  ⟨"A", "PAY_PER_REQUEST", false, .stream, fun _ => true, fun x => x,
    fun _ => [], pages30, cleanStore⟩

/-- A 1-item page with a cursor followed by an empty cursor-less page. -/
def pagesAbort : Nat → Page Nat Nat :=
  fun i => if i = 0 then ⟨[0], some 0⟩ else ⟨[], none⟩

/-- Stream-mode run whose write store never processes anything. -/
def argsAbort : MigrateArgs Nat Nat Nat :=
  ⟨"A", "PAY_PER_REQUEST", false, .stream, fun _ => true, fun x => x,
    fun _ => [], pagesAbort, alwaysUnprocStore⟩

/-- Batch-mode run over the 30-item table whose batch callback produces
a dead-letter entry internally. -/
def argsBatch : MigrateArgs Nat Nat Nat :=
  ⟨"A", "PAY_PER_REQUEST", false, .batch, fun _ => true, fun x => x,
    fun _ => [⟨"A", [], 0⟩], pages30, cleanStore⟩

/-- The clean store never exhausts the retry budget. -/
theorem cleanStore_ne_threw (tableName : String) (items : List Nat)
    (gs : List (List (List (WriteReq Nat)))) :
    batchWrite cleanStore tableName items ≠ .threw gs := by
  intro h
  rw [batchWrite_eq_bwRef,
    bwRef_clean cleanStore tableName (fun _ _ => rfl) items.length 0
      (items.map fun Item => ⟨Item⟩) (by simp)] at h
  simp at h

/-! ### Claims about the Batch Writer -/

/-- C1 (amended): a genuine store error is captured at the attempt where
it occurs — the operation traps it and returns normally, so the Retry
Controller performs no further attempts for that batch (within a group,
every non-final submission was answered with an unprocessed report,
never an error); when `batchWrite` returns normally, the dead-letter
queue holds exactly one entry per failing store call, with the
destination, the requests submitted at that call, and the error; the
error is never re-raised: a propagated exception only arises from an
unprocessed-items report. -/
theorem claim_C1_amended (store : Store α ε) (tableName : String)
    (items : List α) :
    (∀ (dlq : List (DLQItem α ε)) (groups : List (List (List (WriteReq α)))),
      batchWrite store tableName items = .ok dlq groups →
      dlq = dlqOfCalls store tableName 0 groups.flatten) ∧
    (∀ (gi : Nat) (g : List (List (WriteReq α))) (j : Nat) (e : ε)
      (hg : (batchWrite store tableName items).groups[gi]? = some g)
      (hj : j + 1 < g.length),
      store (((batchWrite store tableName items).groups.take gi).flatten.length + j)
          (g.get ⟨j, Nat.lt_of_succ_lt hj⟩) ≠ .failure e) ∧
    (∀ groups : List (List (List (WriteReq α))),
      batchWrite store tableName items = .threw groups →
      ∃ last reqs, groups.flatten.getLast? = some last ∧
        store (groups.flatten.length - 1) last = .success (some reqs)) := by
  refine ⟨?_, ?_, ?_⟩
  · intro dlq groups h
    rw [batchWrite_eq_bwRef] at h
    rcases hrun : bwRef store tableName items.length 0
        (items.map fun Item => ⟨Item⟩) with ⟨d, gs, k⟩
    rw [hrun] at h
    cases k with
    | finished =>
      simp only [BWOutcome.ok.injEq] at h
      obtain ⟨hd, hg⟩ := h
      subst hd
      subst hg
      have := bwRef_dlq_eq store tableName items.length 0
        (items.map fun Item => ⟨Item⟩) (by rw [hrun])
      rw [hrun] at this
      exact this
    | threw => simp at h
    | ranOut => simp at h
  · intro gi g j e hg hj heq
    rw [batchWrite_groups_eq] at hg
    obtain ⟨hn, _, _⟩ := bwRef_group_spec store tableName items.length 0
      (items.map fun Item => ⟨Item⟩) gi g hg
    obtain ⟨reqs, hresp, _⟩ := hn j hj
    simp only [Nat.zero_add] at hresp
    rw [batchWrite_groups_eq] at heq
    rw [hresp] at heq
    exact absurd heq (by simp)
  · intro groups h
    rw [batchWrite_eq_bwRef] at h
    rcases hrun : bwRef store tableName items.length 0
        (items.map fun Item => ⟨Item⟩) with ⟨d, gs, k⟩
    rw [hrun] at h
    cases k with
    | finished => simp at h
    | threw =>
      simp only [BWOutcome.threw.injEq] at h
      subst h
      have := bwRef_threw_spec store tableName items.length 0
        (items.map fun Item => ⟨Item⟩) (by rw [hrun])
      rw [hrun] at this
      simpa using this
    | ranOut => simp at h

/-- C2: whenever the store answers a submission with a non-empty
unprocessed entry for the destination table and another submission
follows, the immediately following submission is exactly the unprocessed
requests — nothing is duplicated and nothing is dropped. -/
theorem claim_C2 (store : Store α ε) (tableName : String) (items : List α)
    (i : Nat) (b1 b2 reqs : List (WriteReq α))
    (h1 : (batchWrite store tableName items).calls[i]? = some b1)
    (h2 : (batchWrite store tableName items).calls[i + 1]? = some b2)
    (hs : store i b1 = .success (some reqs)) (hne : reqs ≠ []) :
    b2 = reqs := by
  rw [BWOutcome.calls, batchWrite_groups_eq] at h1 h2
  exact bwRef_chain store tableName items.length 0
    (items.map fun Item => ⟨Item⟩) i b1 b2 reqs h1 h2 (by simpa using hs)

/-- C3: against a store that never errors and never reports unprocessed
items, `batchWrite` submits exactly the consecutive chunks of at most 25
requests, once each, in the original order — `⌈n/25⌉` submissions in
total — and returns an empty dead-letter list. -/
theorem claim_C3 (store : Store α ε) (tableName : String) (items : List α)
    (hstore : ∀ i b, store i b = .success none) :
    batchWrite store tableName items =
      .ok [] ((chunksOfLimit (items.map fun Item => ⟨Item⟩)).map fun b => [b]) ∧
    (batchWrite store tableName items).calls =
      chunksOfLimit (items.map fun Item => ⟨Item⟩) ∧
    (batchWrite store tableName items).calls.length =
      (items.length + Limit - 1) / Limit ∧
    (batchWrite store tableName items).calls.flatten =
      (items.map fun Item => ⟨Item⟩) ∧
    ∀ c ∈ (batchWrite store tableName items).calls,
      c ≠ [] ∧ c.length ≤ Limit := by
  have hrun := bwRef_clean store tableName hstore items.length 0
    (items.map fun Item => ⟨Item⟩) (by simp)
  have hchunks : chunksGo items.length
      (items.map fun Item => (⟨Item⟩ : WriteReq α)) =
      chunksOfLimit (items.map fun Item => (⟨Item⟩ : WriteReq α)) :=
    chunksGo_eq_chunksOfLimit items.length _ (by simp)
  have hbw : batchWrite store tableName items =
      .ok [] ((chunksOfLimit (items.map fun Item => ⟨Item⟩)).map fun b => [b]) := by
    rw [batchWrite_eq_bwRef, hrun, hchunks]
  refine ⟨hbw, ?_, ?_, ?_, ?_⟩
  · rw [BWOutcome.calls, hbw]
    dsimp only [BWOutcome.groups]
    exact flatten_map_singleton _
  · rw [BWOutcome.calls, hbw]
    dsimp only [BWOutcome.groups]
    rw [flatten_map_singleton]
    have := chunksOfLimit_length
      (items.map fun Item => (⟨Item⟩ : WriteReq α)).length
      (items.map fun Item => (⟨Item⟩ : WriteReq α)) (Nat.le_refl _)
    simpa using this
  · rw [BWOutcome.calls, hbw]
    dsimp only [BWOutcome.groups]
    rw [flatten_map_singleton]
    exact chunksOfLimit_flatten
      (items.map fun Item => (⟨Item⟩ : WriteReq α)).length _ (Nat.le_refl _)
  · rw [BWOutcome.calls, hbw]
    dsimp only [BWOutcome.groups]
    rw [flatten_map_singleton]
    exact chunksOfLimit_mem
      (items.map fun Item => (⟨Item⟩ : WriteReq α)).length _ (Nat.le_refl _)

/-- C4: an exhausted batch never aborts the rest of the queue: when
`batchWrite` returns normally, every chunk of the queue was dequeued and
opened its own attempt group (in order), with the accumulated dead
letters returned normally; and a thrown exception never comes from a
store error — only from an unprocessed-items report on the final
submission. -/
theorem claim_C4 (store : Store α ε) (tableName : String) (items : List α) :
    (∀ (dlq : List (DLQItem α ε)) (groups : List (List (List (WriteReq α)))),
      batchWrite store tableName items = .ok dlq groups →
      groups.map List.head? =
        (chunksOfLimit (items.map fun Item => ⟨Item⟩)).map some) ∧
    (∀ groups : List (List (List (WriteReq α))),
      batchWrite store tableName items = .threw groups →
      ∃ last reqs, groups.flatten.getLast? = some last ∧
        store (groups.flatten.length - 1) last = .success (some reqs)) := by
  constructor
  · intro dlq groups h
    rw [batchWrite_eq_bwRef] at h
    rcases hrun : bwRef store tableName items.length 0
        (items.map fun Item => ⟨Item⟩) with ⟨d, gs, k⟩
    rw [hrun] at h
    cases k with
    | finished =>
      simp only [BWOutcome.ok.injEq] at h
      obtain ⟨hd, hg⟩ := h
      subst hd
      subst hg
      have := bwRef_heads store tableName items.length 0
        (items.map fun Item => ⟨Item⟩) (by rw [hrun])
      rw [hrun] at this
      rw [chunksGo_eq_chunksOfLimit items.length _ (by simp)] at this
      exact this
    | threw => simp at h
    | ranOut => simp at h
  · intro groups h
    rw [batchWrite_eq_bwRef] at h
    rcases hrun : bwRef store tableName items.length 0
        (items.map fun Item => ⟨Item⟩) with ⟨d, gs, k⟩
    rw [hrun] at h
    cases k with
    | finished => simp at h
    | threw =>
      simp only [BWOutcome.threw.injEq] at h
      subst h
      have := bwRef_threw_spec store tableName items.length 0
        (items.map fun Item => ⟨Item⟩) (by rw [hrun])
      rw [hrun] at this
      simpa using this
    | ranOut => simp at h

/-- C9 (counterexample): with 26 items and a store that reports every
request of the first submission as unprocessed and then succeeds fully,
`batchWrite` does not make two submissions in total: the claim's
conjunction fails at this input. -/
theorem claim_C9_counterexample :
    ¬((batchWrite echoOnceStore "A" items26).dlqOut = some [] ∧
      (batchWrite echoOnceStore "A" items26).calls.length = 2) := by
  decide

/-- C9 (amended): with 26 items and a store that reports every request
of the first submission as unprocessed and then succeeds fully,
`batchWrite` returns zero dead-letter entries and makes exactly three
submissions: the 25-request first chunk, its full resubmission, and the
one-request second chunk. -/
theorem claim_C9_amended :
    (batchWrite echoOnceStore "A" items26).dlqOut = some [] ∧
    (batchWrite echoOnceStore "A" items26).calls.length = 3 ∧
    (batchWrite echoOnceStore "A" items26).calls =
      [List.replicate 25 ⟨0⟩, List.replicate 25 ⟨0⟩, [⟨0⟩]] := by
  decide

/-- C1 (counterexample): against a store whose batched-write call always
rejects with a genuine error, a single-item `batchWrite` submits exactly
once — not the eight attempts the retry budget would allow — and the
error is nevertheless already captured as the only dead-letter entry. -/
theorem claim_C1_counterexample :
    (batchWrite failStore "A" ([0] : List Nat)).calls.length = 1 ∧
    (batchWrite failStore "A" ([0] : List Nat)).calls.length ≠ 8 ∧
    (batchWrite failStore "A" ([0] : List Nat)).dlqOut =
      some [⟨"A", [⟨0⟩], 7⟩] := by
  decide

/-! ### Claims about the Migration Engine -/

/-- The scan loop reads neither the billing mode nor the force flag:
two argument records agreeing on every other field run identically. -/
theorem migrateLoop_congr (a a' : MigrateArgs α κ ε)
    (h1 : a'.TableName = a.TableName) (h2 : a'.mode = a.mode)
    (h3 : a'.filterCb = a.filterCb) (h4 : a'.cb = a.cb)
    (h5 : a'.batchCb = a.batchCb) (h6 : a'.scanOracle = a.scanOracle)
    (h7 : a'.writeStore = a.writeStore) :
    ∀ (fuel i : Nat) (c : Counts) (d : List (DLQItem α ε)),
    migrateLoop a' fuel i c d = migrateLoop a fuel i c d := by
  intro fuel
  induction fuel with
  | zero => intro i c d; rfl
  | succ fuel ih =>
    intro i c d
    rw [migrateLoop, migrateLoop]
    dsimp only
    simp only [h1, h2, h3, h4, h5, h6, h7]
    rcases a.mode with _ | _
    · rcases (a.scanOracle i).LastEvaluatedKey with _ | k
      · rfl
      · exact ih (i + 1) _ d
    · rcases batchWrite a.writeStore a.TableName
          (((a.scanOracle i).Items.filter a.filterCb).map a.cb) with
        ⟨bdlq, gs⟩ | ⟨gs⟩ | ⟨gs⟩
      · rcases (a.scanOracle i).LastEvaluatedKey with _ | k
        · rfl
        · exact ih (i + 1) _ _
      · rfl
      · rfl

/-- C5: against a table that is not in on-demand mode, a run with the
force override unset aborts before any scanning — zero scan calls and
counters still at their initial zeros — while a run with the override
set proceeds exactly as a run against an on-demand table. -/
theorem claim_C5 (a : MigrateArgs α κ ε) (fuel : Nat)
    (h : a.billingMode ≠ "PAY_PER_REQUEST") :
    (a.force = false → migrate a fuel = .preflight ⟨0, 0, 0⟩ 0) ∧
    (a.force = true →
      migrate a fuel = migrate { a with billingMode := "PAY_PER_REQUEST" } fuel) := by
  constructor
  · intro hf
    simp [migrate, h, hf]
  · intro hf
    rw [migrate, migrate]
    simp only [hf, h]
    rw [migrateLoop_congr a
      { a with billingMode := "PAY_PER_REQUEST", force := true }
      rfl rfl rfl rfl rfl rfl rfl]
    simp

/-- C6 (counterexample): a stream-mode run over a two-page table whose
write store reports everything unprocessed terminates by propagating the
retry-exhaustion signal after one scan call, although its page reads
would have yielded a cursor-less page on the second call — the run does
not issue one scan per page. -/
theorem claim_C6_counterexample :
    (pagesAbort 1).LastEvaluatedKey = none ∧
    (migrate argsAbort 10).scans = 1 ∧
    (migrate argsAbort 10).scans ≠ 2 := by
  decide

/-- C6 (amended): a run that passes the pre-flight check, whose batched
writes never exhaust their retry budget on unprocessed items, and whose
page reads yield their first cursor-less page on scan call `k`,
terminates normally with exactly `k + 1` scan calls — one per page —
and a completed-batch counter of `k + 1`; in particular the 30-item
table paged as 25 + 5 completes with 2 scan calls, a 5-item cursor-less
second page, and a batch counter of 2. -/
theorem claim_C6_amended (a : MigrateArgs α κ ε) (fuel k : Nat)
    (hbm : a.billingMode = "PAY_PER_REQUEST" ∨ a.force = true)
    (hw : ∀ (its : List α) (gs : List (List (List (WriteReq α)))),
      batchWrite a.writeStore a.TableName its ≠ .threw gs)
    (hk : (a.scanOracle k).LastEvaluatedKey = none)
    (hprev : ∀ j, j < k → (a.scanOracle j).LastEvaluatedKey ≠ none)
    (hfuel : k < fuel) :
    (∃ c d, migrate a fuel = .ok c d (k + 1) ∧ c.batch = k + 1) ∧
    (migrate args30 10 = .ok ⟨2, 30, 30⟩ [] 2 ∧
      (args30.scanOracle 1).Items.length = 5 ∧
      (args30.scanOracle 1).LastEvaluatedKey = none) := by
  constructor
  · have hent : migrate a fuel = migrateLoop a fuel 0 ⟨0, 0, 0⟩ [] := by
      rcases hbm with hb | hb <;> simp [migrate, hb]
    obtain ⟨c, d, hrun⟩ := migrateLoop_term a hw k fuel 0 ⟨0, 0, 0⟩ []
      hfuel (by simpa using hprev) (by simpa using hk)
    refine ⟨c, d, ?_, ?_⟩
    · rw [hent]
      simpa using hrun
    · have := migrateLoop_counts a fuel 0 ⟨0, 0, 0⟩ [] c d (0 + k + 1) hrun
      simpa using this.2.2.2
  · exact ⟨by decide, by decide, by decide⟩

/-- C7: on every completed run, `totalItems` is the total number of
items delivered by the scanned pages, `migratedItems` is exactly the
number of scanned items accepted by the filter predicate — independent
of whether their writes succeeded or were dead-lettered — and
`totalItems` decomposes as `migratedItems` plus the number of items the
filter rejected. -/
theorem claim_C7 (a : MigrateArgs α κ ε) (fuel : Nat) (c : Counts)
    (d : List (DLQItem α ε)) (s : Nat)
    (h : migrate a fuel = .ok c d s) :
    c.totalItems =
      ((List.range s).map fun p => (a.scanOracle p).Items.length).sum ∧
    c.migratedItems =
      ((List.range s).map
        fun p => ((a.scanOracle p).Items.filter a.filterCb).length).sum ∧
    c.totalItems = c.migratedItems +
      ((List.range s).map
        fun p => ((a.scanOracle p).Items.filter
          fun x => !a.filterCb x).length).sum := by
  have hloop : migrateLoop a fuel 0 ⟨0, 0, 0⟩ [] = .ok c d s := by
    by_cases hc : ¬a.billingMode = "PAY_PER_REQUEST" ∧ ¬a.force
    · rw [migrate, if_pos hc] at h
      simp at h
    · rw [migrate, if_neg hc] at h
      exact h
  obtain ⟨hlt, ht, hm, hb⟩ := migrateLoop_counts a fuel 0 ⟨0, 0, 0⟩ [] c d s hloop
  rw [List.range_eq_range']
  have h0 : s - 0 = s := by omega
  rw [h0] at ht hm
  refine ⟨by simpa using ht, by simpa using hm, ?_⟩
  have hsplit : ((List.range' 0 s).map
      fun p => (a.scanOracle p).Items.length).sum =
      ((List.range' 0 s).map
        fun p => ((a.scanOracle p).Items.filter a.filterCb).length).sum +
      ((List.range' 0 s).map
        fun p => ((a.scanOracle p).Items.filter
          fun x => !a.filterCb x).length).sum := by
    rw [← List.sum_map_add]
    refine congrArg List.sum (List.map_congr_left ?_)
    intro p _
    exact List.length_eq_length_filter_add a.filterCb
  simp only at ht hm
  omega

/-- C8: the Retry Controller invokes the operation at most 8 times with
attempt numbers consecutive from 1, every attempt before the last
raised, the returned error is exactly the final attempt's outcome, an
error escapes only after all 8 attempts ran, and the final state is the
trajectory state after the last attempt. -/
theorem claim_C8 (op : Nat → σ → σ × Option ε) (s : σ) :
    (asyncRetry op s).2.2 = List.range' 1 (asyncRetry op s).2.2.length ∧
    1 ≤ (asyncRetry op s).2.2.length ∧
    (asyncRetry op s).2.2.length ≤ 8 ∧
    (∀ k, k + 1 < (asyncRetry op s).2.2.length →
      ((op (1 + k) (retryStates op 1 s k)).2).isSome) ∧
    (asyncRetry op s).2.1 =
      (op (1 + ((asyncRetry op s).2.2.length - 1))
        (retryStates op 1 s ((asyncRetry op s).2.2.length - 1))).2 ∧
    ((asyncRetry op s).2.1.isSome → (asyncRetry op s).2.2.length = 8) ∧
    (asyncRetry op s).1 = retryStates op 1 s (asyncRetry op s).2.2.length := by
  have h := promiseRetryGo_spec op defaultRetries 1 s
  simpa [asyncRetry, defaultRetries] using h

/-- C10: in Batch Mode the engine hands the filtered page to the batch
callback and discards whatever that callback produced: the dead-letter
queue of a completed run is always empty, whatever dead letters the
callback's own writes generated. -/
theorem claim_C10 (a : MigrateArgs α κ ε) (fuel : Nat)
    (hm : a.mode = .batch) (c : Counts) (d : List (DLQItem α ε)) (s : Nat)
    (h : migrate a fuel = .ok c d s) : d = [] := by
  have hloop : migrateLoop a fuel 0 ⟨0, 0, 0⟩ [] = .ok c d s := by
    by_cases hc : ¬a.billingMode = "PAY_PER_REQUEST" ∧ ¬a.force
    · rw [migrate, if_pos hc] at h
      simp at h
    · rw [migrate, if_neg hc] at h
      exact h
  exact migrateLoop_batch_dlq a hm fuel 0 ⟨0, 0, 0⟩ [] c d s hloop

/-! ### Witnesses -/

/-- C1 witness: the amended theorem applied to a concrete failing run. -/
theorem claim_C1_witness :
    [(⟨"A", [⟨0⟩], 7⟩ : DLQItem Nat Nat)] =
      dlqOfCalls failStore "A" 0
        ([[[(⟨0⟩ : WriteReq Nat)]]] :
          List (List (List (WriteReq Nat)))).flatten :=
  (claim_C1_amended failStore "A" [0]).1 [⟨"A", [⟨0⟩], 7⟩] [[[⟨0⟩]]]
    (by decide)

/-- C2 witness: the resubmission after the echoed unprocessed report of
the 26-item scenario is exactly the unprocessed requests. -/
theorem claim_C2_witness :
    List.replicate 25 (⟨0⟩ : WriteReq Nat) = List.replicate 25 ⟨0⟩ :=
  claim_C2 echoOnceStore "A" items26 0 (List.replicate 25 ⟨0⟩)
    (List.replicate 25 ⟨0⟩) (List.replicate 25 ⟨0⟩) (by decide) (by decide)
    (by decide) (by decide)

/-- C3 witness: three items against the clean store form one batch. -/
theorem claim_C3_witness :
    batchWrite cleanStore "A" [0, 1, 2] =
      .ok [] ((chunksOfLimit ([0, 1, 2].map fun Item =>
        (⟨Item⟩ : WriteReq Nat))).map fun b => [b]) :=
  (claim_C3 cleanStore "A" [0, 1, 2] (fun _ _ => rfl)).1

/-- C4 witness: the failing one-item run still dequeued its only chunk. -/
theorem claim_C4_witness :
    ([[[(⟨0⟩ : WriteReq Nat)]]] : List (List (List (WriteReq Nat)))).map
        List.head? =
      (chunksOfLimit ([0].map fun Item => (⟨Item⟩ : WriteReq Nat))).map some :=
  (claim_C4 failStore "A" [0]).1 [⟨"A", [⟨0⟩], 7⟩] [[[⟨0⟩]]] (by decide)

/-- C5 witness: a provisioned-mode table with the override unset aborts
before scanning. -/
theorem claim_C5_witness :
    migrate { args30 with billingMode := "PROVISIONED" } 10 =
      .preflight ⟨0, 0, 0⟩ 0 :=
  (claim_C5 { args30 with billingMode := "PROVISIONED" } 10 (by decide)).1 rfl

/-- C6 witness: the amended theorem applied to the 30-item scenario. -/
theorem claim_C6_witness :
    (∃ c d, migrate args30 10 = .ok c d (1 + 1) ∧ c.batch = 1 + 1) ∧
    (migrate args30 10 = .ok ⟨2, 30, 30⟩ [] 2 ∧
      (args30.scanOracle 1).Items.length = 5 ∧
      (args30.scanOracle 1).LastEvaluatedKey = none) :=
  claim_C6_amended args30 10 1 (Or.inl rfl)
    (fun its gs => cleanStore_ne_threw "A" its gs) (by decide)
    (fun j hj => by
      have hj0 : j = 0 := by omega
      subst hj0
      decide)
    (by decide)

/-- C7 witness: the counter identity on the completed 30-item run. -/
theorem claim_C7_witness :
    (⟨2, 30, 30⟩ : Counts).totalItems =
      ((List.range 2).map fun p => (args30.scanOracle p).Items.length).sum ∧
    (⟨2, 30, 30⟩ : Counts).migratedItems =
      ((List.range 2).map
        fun p => ((args30.scanOracle p).Items.filter args30.filterCb).length).sum ∧
    (⟨2, 30, 30⟩ : Counts).totalItems = (⟨2, 30, 30⟩ : Counts).migratedItems +
      ((List.range 2).map
        fun p => ((args30.scanOracle p).Items.filter
          fun x => !args30.filterCb x).length).sum :=
  claim_C7 args30 10 ⟨2, 30, 30⟩ [] 2 (by decide)

/-- C8 witness: an always-failing operation is attempted at most eight
times. -/
theorem claim_C8_witness :
    (asyncRetry (fun (n s : Nat) => (s + 1, some n)) 0).2.2.length ≤ 8 :=
  (claim_C8 (fun (n s : Nat) => (s + 1, some n)) 0).2.2.1

/-- C10 witness: a batch-mode run whose callback produced a dead letter
internally still returns an empty queue. -/
theorem claim_C10_witness :
    ([] : List (DLQItem Nat Nat)) = [] :=
  claim_C10 argsBatch 10 rfl ⟨2, 30, 30⟩ [] 2 (by decide)

end DdbSimpleMigrate

